import Mathlib

/-!
Shallow embedding of the popcorn stitching core (`src/popcorn/stitching.py`
and `src/popcorn/resampling.py`) and proofs about it.

Conventions used throughout:
* Python list slicing `l[a:b]` (step 1, possibly negative bounds) is embedded
  by `pySlice`, and slice assignment `l[a:b] = src` by `pySetSlice`.
* Python `int(x / 2)` on an integer `x` (true division followed by truncation
  toward zero) is embedded by `int_div2`.
* Image volumes are lists of slices; each slice is the list of its pixels
  (for the 3D correlation code) or of its pixel rows (for slice assembly).
* On-disk side effects (`os.rename`, `shutil.copy2`, `save_tif_image`) are
  embedded as an explicit trace of `FileEvent`s; `sys.exit` becomes the
  error branch of an `Except`, carrying the trace emitted before the exit.
-/

/-- Normalization of a (possibly negative) Python slice bound `i` for a list
of length `len`: negative bounds count from the end and everything is clamped
into `[0, len]`. -/
def pyNorm (len : ℕ) (i : ℤ) : ℕ :=
  if i < 0 then ((len : ℤ) + i).toNat else min i.toNat len

/-- Python `l[a:b]` (step 1). -/
def pySlice (l : List α) (a b : ℤ) : List α :=
  (l.take (pyNorm l.length b)).drop (pyNorm l.length a)

/-- Python slice assignment `l[a:b] = src` on lists: the elements between the
normalized bounds are removed and `src` is spliced in at the normalized start
position. -/
def pySetSlice (l : List α) (a b : ℤ) (src : List α) : List α :=
  l.take (pyNorm l.length a) ++ src ++ l.drop (max (pyNorm l.length a) (pyNorm l.length b))

/-- Python `int(x / 2)` for an integer `x`: true division by two, truncated
toward zero. -/
def int_div2 (x : ℤ) : ℤ :=
  if 0 ≤ x then x / 2 else -((-x) / 2)

/-- Python signed indexing `l[i]` (negative `i` counts from the end); reads
outside the list are mapped to the default `d` (the source would raise
`IndexError` there, a case none of the theorems below rely on). -/
def pyGet (l : List α) (i : ℤ) (d : α) : α :=
  if 0 ≤ i then l.getD i.toNat d else l.getD ((l.length : ℤ) + i).toNat d

/-- The four admissible `starting_position` strings of
`rearrange_folders_list` ("top-left", "top-right", "bottom-left",
"bottom-right"). -/
inductive StartingPosition where
  | topLeft | topRight | bottomLeft | bottomRight
  deriving DecidableEq, Repr

/-- Python `"left" in starting_position`. -/
def StartingPosition.hasLeft : StartingPosition → Bool
  | .topLeft => true
  | .bottomLeft => true
  | _ => false

/-- Python `"bottom" in starting_position`. -/
def StartingPosition.hasBottom : StartingPosition → Bool
  | .bottomLeft => true
  | .bottomRight => true
  | _ => false

/-- First loop of `rearrange_folders_list` (stitching.py, lines 342-347): the
serpentine pass reverses, in place, each row block whose parity test
`(nb_line + ("left" in starting_position) * 1) % 2 == 0` holds. -/
def serpentine_pass (starting_position : StartingPosition)
    (number_of_lines number_of_columns : ℕ) : List ℕ :=
  (List.range number_of_lines).foldl
    (fun (lf : List ℕ) (nb_line : ℕ) =>
      if (nb_line + (if starting_position.hasLeft then 1 else 0)) % 2 = 0 then
        pySetSlice lf ((nb_line * number_of_columns : ℕ) : ℤ)
          ((nb_line * number_of_columns + number_of_columns : ℕ) : ℤ)
          ((pySlice lf ((nb_line * number_of_columns : ℕ) : ℤ)
            ((nb_line * number_of_columns + number_of_columns : ℕ) : ℤ)).reverse)
      else lf)
    (List.range (number_of_lines * number_of_columns))

/-- Second loop of `rearrange_folders_list` (stitching.py, lines 349-360): the
bottom pass rebuilds the list row by row from the end using Python negative
slices (`list_of_folders[-(a + cols):-a]`, with `[-(a + cols):]` when
`a == 0`), starting from `list(range(1, lines * cols + 1))`. -/
def bottom_pass (number_of_lines number_of_columns : ℕ)
    (list_of_folders : List ℕ) : List ℕ :=
  (List.range number_of_lines).foldl
    (fun (nlf : List ℕ) (nb_line : ℕ) =>
      if 0 < nb_line * number_of_columns then
        pySetSlice nlf ((nb_line * number_of_columns : ℕ) : ℤ)
          ((nb_line * number_of_columns + number_of_columns : ℕ) : ℤ)
          (pySlice list_of_folders
            (-((nb_line * number_of_columns + number_of_columns : ℕ) : ℤ))
            (-((nb_line * number_of_columns : ℕ) : ℤ)))
      else
        pySetSlice nlf ((nb_line * number_of_columns : ℕ) : ℤ)
          ((nb_line * number_of_columns + number_of_columns : ℕ) : ℤ)
          (pySlice list_of_folders
            (-((nb_line * number_of_columns + number_of_columns : ℕ) : ℤ))
            ((list_of_folders.length : ℤ))))
    (List.range' 1 (number_of_lines * number_of_columns))

/-- Embedding of `rearrange_folders_list` (stitching.py, lines 331-363). -/
def rearrange_folders_list (starting_position : StartingPosition)
    (number_of_lines number_of_columns : ℕ) : List ℕ :=
  let serp := serpentine_pass starting_position number_of_lines number_of_columns
  if starting_position.hasBottom then
    bottom_pass number_of_lines number_of_columns serp
  else serp

/-- One observable file emission of `stitch_multiple_folders_into_one`:
`src moved f` records that source slice `f` was transferred to the output
folder (`moved = true` for `os.rename`, `false` for `shutil.copy2`);
`avgWrite f i` records the `save_tif_image` call performed for source
filename `f` at inner index `i` of the averaged-band save loop. -/
inductive FileEvent (α : Type) where
  | src : Bool → α → FileEvent α
  | avgWrite : α → ℕ → FileEvent α
  deriving DecidableEq, Repr

/-- Loop body of `stitch_multiple_folders_into_one` (stitching.py, lines
45-182), processing the remaining folders. Each folder is given as its
name-sorted list of slice files; `flip` reverses each list, as the
`sort(reverse=True)` branch does. The state `top` is `top_overlap_index`
and `evs` the trace of file emissions so far. `corr` is the oracle for
`int(look_for_maximum_correlation_band(...))`, which operates on image
content that lives outside this embedding. `sys.exit` is embedded as
`Except.error` carrying the message and the trace emitted before exiting. -/
def stitchLoop (delta_z : ℤ) (look_for_best_slice : Bool)
    (corr : List α → List α → ℤ)
    (copy_mode security_band_size overlap_mode band_average_size : ℤ) (flip : Bool) :
    List (List α) → ℤ → List (FileEvent α) →
      Except (String × List (FileEvent α)) (List (FileEvent α))
  | [], _top, evs => .ok evs
  | [folder], top, evs =>
      -- last folder: `list_to_copy = bottom_image_filenames[top_overlap_index:-1]`
      let files := if flip then folder.reverse else folder
      let list_to_copy := pySlice files top (-1)
      .ok (evs ++ list_to_copy.map (FileEvent.src (copy_mode == 0)))
  | folder :: next_folder :: rest, top, evs =>
      let files := if flip then folder.reverse else folder
      let top_files := if flip then next_folder.reverse else next_folder
      let nb_slices : ℤ := files.length
      let supposed_bottom_overlap_slice := nb_slices - int_div2 (nb_slices - delta_z)
      let supposed_top_overlap_slice := int_div2 (nb_slices - delta_z)
      if 0 < security_band_size then
        let overlap_index_difference : ℤ :=
          if look_for_best_slice then
            let bottom_band := pySlice files
              (supposed_bottom_overlap_slice - security_band_size)
              (supposed_bottom_overlap_slice + security_band_size)
            let top_band := pySlice top_files
              (supposed_top_overlap_slice - security_band_size)
              (supposed_top_overlap_slice + security_band_size)
            security_band_size - corr bottom_band top_band
          else 0
        let bottom_overlap_index := supposed_bottom_overlap_slice + overlap_index_difference
        let list_to_copy := pySlice files top bottom_overlap_index
        if overlap_mode == 0 then
          stitchLoop delta_z look_for_best_slice corr copy_mode security_band_size
            overlap_mode band_average_size flip (next_folder :: rest)
            supposed_top_overlap_slice
            (evs ++ list_to_copy.map (FileEvent.src (copy_mode == 0)))
        else
          let list_of_new_filenames := pySlice files
            (bottom_overlap_index - int_div2 band_average_size)
            (bottom_overlap_index + int_div2 band_average_size)
          let avg_events := (list_of_new_filenames.map (fun f =>
            (List.range band_average_size.toNat).map (FileEvent.avgWrite f))).flatten
          stitchLoop delta_z look_for_best_slice corr copy_mode security_band_size
            overlap_mode band_average_size flip (next_folder :: rest)
            (supposed_top_overlap_slice + overlap_index_difference + int_div2 band_average_size)
            (evs ++ list_to_copy.map (FileEvent.src (copy_mode == 0)) ++ avg_events)
      else .error ("Please use a security_band_size > 0", evs)

/-- Embedding of `stitch_multiple_folders_into_one` (stitching.py, lines
18-182). The folder list is taken already name-sorted (the source's
`list_of_folders.sort()`); file contents are opaque (`α`). -/
def stitch_multiple_folders_into_one (list_of_folders : List (List α)) (delta_z : ℤ)
    (look_for_best_slice : Bool) (corr : List α → List α → ℤ)
    (copy_mode security_band_size overlap_mode band_average_size : ℤ) (flip : Bool) :
    Except (String × List (FileEvent α)) (List (FileEvent α)) :=
  stitchLoop delta_z look_for_best_slice corr copy_mode security_band_size overlap_mode
    band_average_size flip list_of_folders 0 []

/-- Test fixture: `n` folders of `nb` slices each, slice `s` of folder `k`
identified as `(k, s)`. -/
def mkUniformFolders (n nb : ℕ) : List (List (ℕ × ℕ)) :=
  (List.range n).map (fun k => (List.range nb).map (fun s => (k, s)))

/-- The cut-over emission pattern of `stitchLoop` on `m` uniform folders of
`nb` slices labelled from `k`, with current `top_overlap_index = t` and
nominal top overlap index `q`: every folder contributes the contiguous index
range `[t, nb - q)` (first folder), `[q, nb - q)` (middle folders) or
`[q, nb - 1)` (last folder). -/
def expEmit (nb q : ℕ) (mv : Bool) : ℕ → ℕ → ℕ → List (FileEvent (ℕ × ℕ))
  | 0, _k, _t => []
  | 1, k, t => (List.range' t (nb - 1 - t)).map (fun s => FileEvent.src mv (k, s))
  | m + 2, k, t =>
      (List.range' t (nb - q - t)).map (fun s => FileEvent.src mv (k, s))
        ++ expEmit nb q mv (m + 1) (k + 1) q

/-- Nominal global z-position of an emitted slice, when folder `k` starts
`k * delta_z` slices below folder `0`. -/
def zOf (delta_z : ℕ) : FileEvent (ℕ × ℕ) → ℕ
  | .src _ (k, s) => k * delta_z + s
  | .avgWrite _ _ => 0

/-- Embedding of `average_images_from_filenames` (stitching.py, lines
185-205) after the two `open_sequence` calls (file reading is an external
collaborator): both the `mode == 1` branch and the `else` branch return
`(first_image + second_image) / 2`, elementwise over slices and pixels. -/
def average_images_from_filenames (first_image second_image : List (List ℚ))
    (mode : ℤ) : List (List ℚ) :=
  if mode = 1 then
    List.zipWith (List.zipWith (fun a b => (a + b) / 2)) first_image second_image
  else
    List.zipWith (List.zipWith (fun a b => (a + b) / 2)) first_image second_image

/-- Embedding of `conversion_from_uint16_to_float32` (resampling.py, lines
6-18), on one pixel, in exact arithmetic: `(image / 65535) * (max_value -
min_value) - min_value`. -/
def conversion_from_uint16_to_float32 (pixel min_value max_value : ℚ) : ℚ :=
  pixel / 65535 * (max_value - min_value) - min_value

/-- Embedding of `conversion_from_float32_to_uint16` (resampling.py, lines
21-33), on one pixel, in exact arithmetic, giving the value `(image -
min_value) / (max_value - min_value) * 65535` just before the final
`astype(np.uint16)` cast (the cast cannot turn a value this far from the
original back into it, so it is not needed for the claims below). -/
def conversion_from_float32_to_uint16_value (pixel min_value max_value : ℚ) : ℚ :=
  (pixel - min_value) / (max_value - min_value) * 65535

/-- One iteration of the final row-concatenation loop of
`multiple_tile_registration` (stitching.py, lines 682-690): row `nb_line` of
the grid writes its cropped contribution into the output slice buffer.
Index arithmetic mirrors the source, including Python operator precedence
(`x * supposed_overlap // 2` is `(x * supposed_overlap) // 2`); each numpy
row-range assignment (whose two sides always have equal row counts here) is
embedded as `pySetSlice`. -/
def assemble_row_step (line_slices : List (List α))
    (ref_height supposed_overlap : ℕ) (empty_image : List α) (nb_line : ℕ) : List α :=
  let out_slice := line_slices.getD nb_line []
  if nb_line = 0 then
    pySetSlice empty_image 0
      ((out_slice.length : ℤ) - ((supposed_overlap / 2 : ℕ) : ℤ))
      (pySlice out_slice 0
        ((out_slice.length : ℤ) - ((supposed_overlap / 2 : ℕ) : ℤ)))
  else
    pySetSlice empty_image
      ((nb_line : ℤ) * ((ref_height : ℤ) - ((supposed_overlap / 2 : ℕ) : ℤ))
        - (((nb_line - 1) * supposed_overlap / 2 : ℕ) : ℤ))
      ((nb_line : ℤ) * (ref_height : ℤ)
        - (((2 * nb_line + 1) * supposed_overlap / 2 : ℕ) : ℤ)
        + (out_slice.length : ℤ))
      (pySlice out_slice ((supposed_overlap / 2 : ℕ) : ℤ)
        ((out_slice.length : ℤ) - ((supposed_overlap / 2 : ℕ) : ℤ)))

/-- Embedding of the final row-concatenation loop of
`multiple_tile_registration` (stitching.py, lines 678-690) for one output
slice index: `line_slices` are the `open_image` results for the current
`nb_image` (each a list of pixel rows, rows being opaque `α`), `zero_row` a
row of the `np.zeros` canvas of line 678. -/
def assemble_output_slice (line_slices : List (List α)) (zero_row : α)
    (ref_height supposed_overlap number_of_lines : ℕ) : List α :=
  (List.range number_of_lines).foldl
    (assemble_row_step line_slices ref_height supposed_overlap)
    (List.replicate (number_of_lines * ref_height - supposed_overlap * (number_of_lines - 1))
      zero_row)

/-- An in-memory image volume: a list of slices, each slice the flattened
list of its pixels, together with the `width`/`height` of `image.shape`.
Pixels are exact reals, the idealization of the float arrays the source
manipulates. -/
structure Image where
  slices : List (List ℝ)
  width : ℕ
  height : ℕ

/-- `np.mean` of a pixel list. -/
noncomputable def npMean (l : List ℝ) : ℝ := l.sum / l.length

/-- Mean-centering of a slice, `slice - np.mean(slice)`. -/
noncomputable def centerSlice (l : List ℝ) : List ℝ := l.map (fun x => x - npMean l)

/-- `np.std` of a pixel list: the square root of the mean squared deviation
from the mean. -/
noncomputable def npStd (l : List ℝ) : ℝ :=
  Real.sqrt (npMean (l.map (fun x => (x - npMean l) ^ 2)))

/-- `np.sum(first_slice * second_slice)`, the sum of the elementwise product
of two equally-shaped slices. -/
noncomputable def sliceProductSum (u v : List ℝ) : ℝ := (List.zipWith (· * ·) u v).sum

/-- `np.argmax`: index of the first occurrence of the maximum (0 on the
empty list). -/
noncomputable def npArgmaxAux : List ℝ → ℕ → ℕ → ℝ → ℕ
  | [], _i, best_idx, _best_val => best_idx
  | v :: rest, i, best_idx, best_val =>
      if best_val < v then npArgmaxAux rest (i + 1) i v
      else npArgmaxAux rest (i + 1) best_idx best_val

/-- `np.argmax` over a list of scores. -/
noncomputable def npArgmax : List ℝ → ℕ
  | [] => 0
  | v :: rest => npArgmaxAux rest 1 0 v

/-- The `normalized_cross_correlations` array of
`look_for_maximum_correlation` (stitching.py, lines 220-248): the reference
slice is the mean-centered middle slice of `first_image`, every slice of
`second_image` is mean-centered, and entry `j` is
`sum(reference * centered_second[j]) / (std(reference) * std(centered_second[j])) / (width * height)`
with `width`/`height` the maxima of the two images' dimensions. -/
noncomputable def ncc_scores (first_image second_image : Image) : List ℝ :=
  let width := max first_image.width second_image.width
  let height := max first_image.height second_image.height
  let middle_slice := first_image.slices.length / 2
  let first_image_middle_slice := centerSlice (first_image.slices.getD middle_slice [])
  let first_image_middle_slice_std := npStd first_image_middle_slice
  let centered_second_image := second_image.slices.map centerSlice
  centered_second_image.map (fun centered_slice =>
    sliceProductSum first_image_middle_slice centered_slice
      / (first_image_middle_slice_std * npStd centered_slice)
      / ((width * height : ℕ) : ℝ))

/-- Embedding of `look_for_maximum_correlation` (stitching.py, lines
208-253): the argmax of the normalized cross-correlation scores. -/
noncomputable def look_for_maximum_correlation (first_image second_image : Image) : ℕ :=
  npArgmax (ncc_scores first_image second_image)

/-- The `centered_second_image` of `look_for_maximum_correlation_band`
(stitching.py, lines 287-294) in the `with_segmentation=False` branch: the
first `nb_slices` slices of `second_image` (the loop bound is
`first_image`'s slice count), each mean-centered. The
`with_segmentation=True` branch applies an Otsu mask computed by `skimage`
(an external collaborator, out of the embedding's scope). -/
noncomputable def band_centered_second (first_image second_image : Image) : List (List ℝ) :=
  (List.range first_image.slices.length).map
    (fun slice_nb => centerSlice (second_image.slices.getD slice_nb []))

/-- The inner `normalized_cross_correlations` array of
`look_for_maximum_correlation_band` (lines 309-320, `with_segmentation =
False`) for reference offset `i` from the middle slice: scores of the
mean-centered slice `first_image[middle + i]` against every centered slice
of the second image, divided by the product of standard deviations and by
`width * height` of `first_image.shape`. -/
noncomputable def band_inner_scores (first_image second_image : Image) (i : ℤ) : List ℝ :=
  let middle_slice_nb := first_image.slices.length / 2
  let first_image_middle_slice :=
    centerSlice (pyGet first_image.slices ((middle_slice_nb : ℤ) + i) [])
  let first_image_middle_slice_std := npStd first_image_middle_slice
  (band_centered_second first_image second_image).map (fun centered_slice =>
    sliceProductSum first_image_middle_slice centered_slice
      / (first_image_middle_slice_std * npStd centered_slice)
      / ((first_image.width * first_image.height : ℕ) : ℝ))

/-- `best_corresponding_slice_nb = np.argmax(normalized_cross_correlations) - i`
(stitching.py, line 323) for reference offset `i`. -/
noncomputable def band_best_candidate (first_image second_image : Image) (i : ℤ) : ℝ :=
  (npArgmax (band_inner_scores first_image second_image i) : ℝ) - (i : ℝ)

/-- Python `range(a, b)` over integers. -/
def pyRange (a b : ℤ) : List ℤ :=
  (List.range (b - a).toNat).map (fun (k : ℕ) => a + (k : ℤ))

/-- The `best_slice_candidates` array (stitching.py, lines 297-324):
`np.zeros(band_size)` filled, for `i` in
`range(int(-band_size / 2), int(band_size / 2))`, at position
`i + int(band_size / 2)` with the best candidate for offset `i`. -/
noncomputable def best_slice_candidates (first_image second_image : Image)
    (band_size : ℕ) : List ℝ :=
  (pyRange (-((band_size / 2 : ℕ) : ℤ)) ((band_size / 2 : ℕ) : ℤ)).foldl
    (fun arr i =>
      arr.set (i + ((band_size / 2 : ℕ) : ℤ)).toNat
        (band_best_candidate first_image second_image i))
    (List.replicate band_size 0)

/-- `np.median`: sort ascending; the middle element for odd length, the mean
of the two middle elements for even length. -/
noncomputable def npMedian (l : List ℝ) : ℝ :=
  let sorted := List.insertionSort (· ≤ ·) l
  if l.length % 2 = 1 then sorted.getD (l.length / 2) 0
  else (sorted.getD (l.length / 2 - 1) 0 + sorted.getD (l.length / 2) 0) / 2

/-- Embedding of `look_for_maximum_correlation_band` (stitching.py, lines
256-328) with `with_segmentation = False`: the median of the per-offset
best candidates. -/
noncomputable def look_for_maximum_correlation_band (first_image second_image : Image)
    (band_size : ℕ) : ℝ :=
  npMedian (best_slice_candidates first_image second_image band_size)

/-- A uniform intensity scale-and-shift `x -> a * x + b` applied to every
pixel of an image (dimensions unchanged). -/
def affineImage (a b : ℝ) (image : Image) : Image :=
  ⟨image.slices.map (List.map (fun x => a * x + b)), image.width, image.height⟩

/-! ### Basic facts about the Python slicing embedding -/

theorem pyNorm_coe (len k : ℕ) : pyNorm len (k : ℤ) = min k len := by
  simp [pyNorm]

theorem pyNorm_neg_coe (len k : ℕ) (h0 : 0 < k) : pyNorm len (-(k : ℤ)) = len - k := by
  have hneg : (-(k : ℤ)) < 0 := by exact_mod_cast Int.neg_neg_of_pos (by exact_mod_cast h0)
  simp only [pyNorm, if_pos hneg]
  rw [show (len : ℤ) + -(k : ℤ) = (len : ℤ) - (k : ℤ) by ring, Int.toNat_sub]

theorem pySlice_coe (l : List α) (a b : ℕ) (hb : b ≤ l.length) :
    pySlice l (a : ℤ) (b : ℤ) = (l.take b).drop a := by
  unfold pySlice
  rw [pyNorm_coe, pyNorm_coe, min_eq_left hb]
  rcases le_or_lt a l.length with ha | ha
  · rw [min_eq_left ha]
  · rw [min_eq_right ha.le, List.drop_eq_nil_of_le, List.drop_eq_nil_of_le]
    · exact le_trans (le_trans (List.length_take_le _ _) hb) ha.le
    · exact le_trans (List.length_take_le _ _) hb

theorem pySlice_neg_neg (l : List α) (a c : ℕ) (ha : 0 < a) (h : a + c ≤ l.length) :
    pySlice l (-((a + c : ℕ) : ℤ)) (-((a : ℕ) : ℤ)) =
      (l.drop (l.length - (a + c))).take c := by
  unfold pySlice
  rw [pyNorm_neg_coe _ _ (by omega), pyNorm_neg_coe _ _ ha, List.drop_take]
  congr 1
  omega

theorem pySlice_neg_end (l : List α) (c : ℕ) (hc : 0 < c) (h : c ≤ l.length) :
    pySlice l (-((c : ℕ) : ℤ)) ((l.length : ℤ)) = (l.drop (l.length - c)).take c := by
  unfold pySlice
  rw [pyNorm_coe, pyNorm_neg_coe _ _ hc, min_self, List.take_length]
  rw [List.take_of_length_le]
  rw [List.length_drop]
  omega

theorem pySetSlice_coe (l src : List α) (a b : ℕ) (hab : a ≤ b) (hb : b ≤ l.length) :
    pySetSlice l (a : ℤ) (b : ℤ) src = l.take a ++ src ++ l.drop b := by
  unfold pySetSlice
  rw [pyNorm_coe, pyNorm_coe, min_eq_left (le_trans hab hb), min_eq_left hb,
    max_eq_right hab]

/-! ### C1/C6: the grid ordering is a serpentine permutation -/

theorem pySetSlice_reverse_perm (l : List ℕ) (a c : ℕ) (h : a + c ≤ l.length) :
    (pySetSlice l (a : ℤ) ((a + c : ℕ) : ℤ)
      ((pySlice l (a : ℤ) ((a + c : ℕ) : ℤ)).reverse)).Perm l := by
  rw [pySetSlice_coe _ _ _ _ (by omega) h, pySlice_coe _ _ _ h]
  have hdecomp : l = l.take a ++ (l.take (a + c)).drop a ++ l.drop (a + c) := by
    conv_lhs => rw [← List.take_append_drop (a + c) l]
    congr 1
    conv_lhs => rw [← List.take_append_drop a (l.take (a + c))]
    rw [List.take_take, min_eq_left (by omega)]
  conv_rhs => rw [hdecomp]
  exact List.Perm.append_right _ (List.Perm.append_left _ (List.reverse_perm _))

theorem serpentine_pass_perm (pos : StartingPosition) (lines cols : ℕ) :
    (serpentine_pass pos lines cols).Perm (List.range (lines * cols)) := by
  unfold serpentine_pass
  suffices h : ∀ (xs : List ℕ) (acc : List ℕ), (∀ x ∈ xs, x < lines) →
      acc.Perm (List.range (lines * cols)) →
      (xs.foldl (fun (lf : List ℕ) (nb_line : ℕ) =>
        if (nb_line + (if pos.hasLeft then 1 else 0)) % 2 = 0 then
          pySetSlice lf ((nb_line * cols : ℕ) : ℤ) ((nb_line * cols + cols : ℕ) : ℤ)
            ((pySlice lf ((nb_line * cols : ℕ) : ℤ)
              ((nb_line * cols + cols : ℕ) : ℤ)).reverse)
        else lf) acc).Perm (List.range (lines * cols)) by
    exact h _ _ (fun x hx => List.mem_range.mp hx) (List.Perm.refl _)
  intro xs
  induction xs with
  | nil => intro acc _ hacc; simpa using hacc
  | cons x xs ih =>
    intro acc hx hacc
    rw [List.foldl_cons]
    refine ih _ (fun y hy => hx y (List.mem_cons_of_mem _ hy)) ?_
    by_cases hpar : (x + (if pos.hasLeft = true then 1 else 0)) % 2 = 0
    · rw [if_pos hpar]
      have hlen : x * cols + cols ≤ acc.length := by
        rw [hacc.length_eq, List.length_range]
        have hx1 : x + 1 ≤ lines := hx x (List.mem_cons_self _ _)
        calc x * cols + cols = (x + 1) * cols := by ring
          _ ≤ lines * cols := Nat.mul_le_mul_right cols hx1
      exact (pySetSlice_reverse_perm acc (x * cols) cols hlen).trans hacc
    · rw [if_neg hpar]
      exact hacc

theorem blocks_flatten (n c : ℕ) :
    ∀ l : List α, l.length = n * c →
      ((List.range n).map (fun j => (l.drop (j * c)).take c)).flatten = l := by
  induction n with
  | zero =>
    intro l hl
    rw [Nat.zero_mul] at hl
    simp [List.eq_nil_of_length_eq_zero hl]
  | succ n ih =>
    intro l hl
    rw [List.range_succ_eq_map, List.map_cons, List.flatten_cons, List.map_map]
    have hblocks : (List.range n).map ((fun j => (l.drop (j * c)).take c) ∘ Nat.succ) =
        (List.range n).map (fun j => ((l.drop c).drop (j * c)).take c) := by
      apply List.map_congr_left
      intro j _
      simp only [Function.comp_apply]
      rw [List.drop_drop]
      congr 2
      simp [Nat.succ_eq_add_one]
      ring
    rw [hblocks, ih (l.drop c) (by rw [List.length_drop, hl]; ring_nf; omega)]
    simpa using List.take_append_drop c l

theorem bottom_block_src (serp : List ℕ) (lines cols m : ℕ) (hm : m < lines)
    (hs : serp.length = lines * cols) :
    (if 0 < m * cols then
        pySlice serp (-((m * cols + cols : ℕ) : ℤ)) (-((m * cols : ℕ) : ℤ))
      else
        pySlice serp (-((m * cols + cols : ℕ) : ℤ)) ((serp.length : ℤ))) =
      (serp.drop (serp.length - (m * cols + cols))).take cols := by
  have hmc : m * cols + cols ≤ serp.length := by
    rw [hs]
    calc m * cols + cols = (m + 1) * cols := by ring
      _ ≤ lines * cols := Nat.mul_le_mul_right cols hm
  rcases Nat.eq_zero_or_pos cols with hc | hc
  · subst hc
    have hserp : serp = [] := List.eq_nil_of_length_eq_zero (by omega)
    subst hserp
    split_ifs <;> simp [pySlice]
  · rcases Nat.eq_zero_or_pos (m * cols) with h0 | h0
    · rw [if_neg (by omega), h0, Nat.zero_add]
      have := pySlice_neg_end serp cols hc (by omega)
      rw [this]
    · rw [if_pos h0]
      exact pySlice_neg_neg serp (m * cols) cols h0 hmc

theorem bottom_block_length (serp : List ℕ) (lines cols j : ℕ) (hj : j < lines)
    (hs : serp.length = lines * cols) :
    ((serp.drop (serp.length - (j * cols + cols))).take cols).length = cols := by
  rw [List.length_take, List.length_drop]
  have h1 : (j + 1) * cols ≤ lines * cols := Nat.mul_le_mul_right cols hj
  rw [Nat.succ_mul] at h1
  omega

theorem bottom_pass_fold (serp : List ℕ) (lines cols : ℕ) (hs : serp.length = lines * cols) :
    ∀ m, m ≤ lines →
      ((List.range m).foldl
        (fun (nlf : List ℕ) (nb_line : ℕ) =>
          if 0 < nb_line * cols then
            pySetSlice nlf ((nb_line * cols : ℕ) : ℤ) ((nb_line * cols + cols : ℕ) : ℤ)
              (pySlice serp (-((nb_line * cols + cols : ℕ) : ℤ))
                (-((nb_line * cols : ℕ) : ℤ)))
          else
            pySetSlice nlf ((nb_line * cols : ℕ) : ℤ) ((nb_line * cols + cols : ℕ) : ℤ)
              (pySlice serp (-((nb_line * cols + cols : ℕ) : ℤ)) ((serp.length : ℤ))))
        (List.range' 1 (lines * cols))) =
      ((List.range m).map
        (fun j => (serp.drop (serp.length - (j * cols + cols))).take cols)).flatten
        ++ (List.range' 1 (lines * cols)).drop (m * cols) := by
  intro m
  induction m with
  | zero => simp
  | succ m ih =>
    intro hm
    rw [List.range_succ, List.foldl_append, List.foldl_cons, List.foldl_nil, ih (by omega)]
    set A := ((List.range m).map
      (fun j => (serp.drop (serp.length - (j * cols + cols))).take cols)).flatten with hA
    set R := (List.range' 1 (lines * cols)).drop (m * cols) with hR
    have hAlen : A.length = m * cols := by
      rw [hA, List.length_flatten, List.map_map]
      have hmap : (List.range m).map
          (List.length ∘ fun j => (serp.drop (serp.length - (j * cols + cols))).take cols) =
          (List.range m).map (fun _ => cols) := by
        apply List.map_congr_left
        intro j hj
        exact bottom_block_length serp lines cols j
          (lt_of_lt_of_le (List.mem_range.mp hj) (by omega)) hs
      rw [hmap]
      simp [List.map_const', mul_comm]
    have hRlen : R.length = lines * cols - m * cols := by
      rw [hR, List.length_drop, List.length_range']
    have hlen : m * cols + cols ≤ (A ++ R).length := by
      rw [List.length_append, hAlen, hRlen]
      have h1 : (m + 1) * cols ≤ lines * cols := Nat.mul_le_mul_right cols (by omega)
      rw [Nat.succ_mul] at h1
      have h2 : m * cols ≤ lines * cols := Nat.mul_le_mul_right cols (by omega)
      omega
    have htake : (A ++ R).take (m * cols) = A := by
      rw [← hAlen]; exact List.take_left A R
    have hdrop : (A ++ R).drop (m * cols + cols) = R.drop cols := by
      rw [← hAlen]; exact List.drop_append cols
    have hdrop2 : R.drop cols = (List.range' 1 (lines * cols)).drop ((m + 1) * cols) := by
      rw [hR, List.drop_drop, Nat.succ_mul]
    rw [← apply_ite
      (pySetSlice (A ++ R) ((m * cols : ℕ) : ℤ) ((m * cols + cols : ℕ) : ℤ))]
    rw [bottom_block_src serp lines cols m (by omega) hs]
    rw [pySetSlice_coe _ _ _ _ (by omega) hlen, htake, hdrop, hdrop2]
    rw [List.map_append]
    simp only [List.map_cons, List.map_nil, List.flatten_append, List.flatten_cons,
      List.flatten_nil, List.append_nil]

theorem bottom_pass_perm (lines cols : ℕ) (serp : List ℕ)
    (hs : serp.length = lines * cols) :
    (bottom_pass lines cols serp).Perm serp := by
  unfold bottom_pass
  rw [bottom_pass_fold serp lines cols hs lines (le_refl lines)]
  rw [List.drop_eq_nil_of_le (by rw [List.length_range']), List.append_nil]
  have hrangerev : (List.range lines).reverse = (List.range lines).map (fun i => lines - 1 - i) := by
    conv_lhs => rw [List.range_eq_range']
    rw [List.reverse_range']
    simp
  have hmap : (List.range lines).map
      (fun j => (serp.drop (serp.length - (j * cols + cols))).take cols) =
      ((List.range lines).map (fun j => (serp.drop (j * cols)).take cols)).reverse := by
    rw [← List.map_reverse, hrangerev, List.map_map]
    apply List.map_congr_left
    intro j _hj
    simp only [Function.comp_apply]
    congr 2
    rw [hs, Nat.sub_sub, Nat.sub_mul]
    congr 1
    ring
  rw [hmap]
  exact ((List.reverse_perm _).flatten).trans
    (by rw [blocks_flatten lines cols serp hs])

/-- C1: for every number of rows `r >= 1`, columns `c >= 1` and every starting
corner, `rearrange_folders_list` returns a permutation of `[0, r * c)` - every
index occurs exactly once, none skipped, none duplicated. -/
theorem rearrange_folders_list_is_perm (starting_position : StartingPosition)
    (r c : ℕ) (hr : 1 ≤ r) (hc : 1 ≤ c) :
    (rearrange_folders_list starting_position r c).Perm (List.range (r * c)) := by
  unfold rearrange_folders_list
  have hserp := serpentine_pass_perm starting_position r c
  cases hb : starting_position.hasBottom
  · simpa [hb] using hserp
  · simp only [hb, if_pos]
    exact (bottom_pass_perm r c _
      (hserp.length_eq.trans (List.length_range _))).trans hserp

/-- Witness for C1 at `r = 2`, `c = 3`, corner `bottom-left`. -/
theorem rearrange_folders_list_is_perm_witness :
    1 ≤ 2 ∧ 1 ≤ 3 ∧
      (rearrange_folders_list StartingPosition.bottomLeft 2 3).Perm (List.range (2 * 3)) :=
  ⟨by decide, by decide,
    rearrange_folders_list_is_perm StartingPosition.bottomLeft 2 3 (by decide) (by decide)⟩

/-- C6: with `rows = 2`, `cols = 3`, the `bottom-right` ordering equals the
`top-left` ordering after reversing the row order and the scan direction
within each row. -/
theorem rearrange_bottom_right_reverses_top_left :
    rearrange_folders_list StartingPosition.bottomRight 2 3 =
      (((List.range 2).map (fun j =>
          ((rearrange_folders_list StartingPosition.topLeft 2 3).drop (j * 3)).take 3)).map
        List.reverse).reverse.flatten := by
  decide

/-! ### C8: the two averaging modes coincide -/

/-- C8: on equally-shaped inputs, `average_images_from_filenames` returns the
elementwise arithmetic mean `(first + second) / 2` in mode 1 (standard
average) and in mode 2 (weighted average) alike: the two modes are
extensionally equal. -/
theorem average_images_modes_agree (first_image second_image : List (List ℚ))
    (hlen : first_image.length = second_image.length)
    (hshape : ∀ p ∈ first_image.zip second_image, p.1.length = p.2.length) :
    average_images_from_filenames first_image second_image 1 =
        List.zipWith (List.zipWith (fun a b => (a + b) / 2)) first_image second_image ∧
      average_images_from_filenames first_image second_image 2 =
        List.zipWith (List.zipWith (fun a b => (a + b) / 2)) first_image second_image ∧
      average_images_from_filenames first_image second_image 1 =
        average_images_from_filenames first_image second_image 2 := by
  refine ⟨rfl, ?_, ?_⟩ <;> simp [average_images_from_filenames]

/-- Witness for C8 on the pair `[[1, 2]]`, `[[3, 5]]`. -/
theorem average_images_modes_agree_witness :
    ([[(1 : ℚ), 2]] : List (List ℚ)).length = ([[3, 5]] : List (List ℚ)).length ∧
      average_images_from_filenames [[(1 : ℚ), 2]] [[3, 5]] 1 =
        average_images_from_filenames [[(1 : ℚ), 2]] [[3, 5]] 2 :=
  ⟨by decide,
    (average_images_modes_agree [[(1 : ℚ), 2]] [[3, 5]] (by decide) (by decide)).2.2⟩

/-! ### C10: the uint16/float32 conversions are not mutual inverses -/

/-- C10: the conversions are claimed (and documented, resampling.py line 7:
`0 -> min, 65535 -> max`) to be mutually inverse, but
`conversion_from_uint16_to_float32` computes `(image / 65535) * (max - min)
- min` instead of `... + min`: pixel `0` with bounds `(1, 2)` maps to `-1`
(not to `min_value = 1`), and feeding that through the reverse conversion
yields `-131070` (not `0`), far outside `[0, 65535]`, so no final cast can
restore the original value. -/
theorem conversion_roundtrip_fails :
    conversion_from_uint16_to_float32 0 1 2 = -1 ∧
      conversion_from_float32_to_uint16_value
        (conversion_from_uint16_to_float32 0 1 2) 1 2 = -131070 := by
  constructor <;>
    norm_num [conversion_from_uint16_to_float32, conversion_from_float32_to_uint16_value]

/-! ### C5: the non-positive band-size check is only reached with two or more
folders -/

/-- C5 counterexample: a run with a single input folder and
`security_band_size = 0` does not terminate with an error - the band-size
check sits inside the `folder_nb < number_of_folders - 1` branch, which a
single-folder run never enters - and it emits an output file. -/
theorem stitch_nonpositive_band_single_folder_no_error :
    stitch_multiple_folders_into_one [[0, 1]] 0 false (fun _ _ => 0) 0 0 0 0 false =
      Except.ok [FileEvent.src true 0] := by
  rfl

/-- C5 (amended): with at least two input folders, a non-positive
`security_band_size` terminates the run through
`sys.exit("Please use a security_band_size > 0")` before emitting any output
file; with fewer than two folders the check is never reached. -/
theorem stitch_nonpositive_band_errors (folders : List (List α)) (delta_z : ℤ)
    (look_for_best_slice : Bool) (corr : List α → List α → ℤ)
    (copy_mode band overlap_mode band_average_size : ℤ) (flip : Bool)
    (h2 : 2 ≤ folders.length) (hband : band ≤ 0) :
    stitch_multiple_folders_into_one folders delta_z look_for_best_slice corr copy_mode
        band overlap_mode band_average_size flip =
      Except.error ("Please use a security_band_size > 0", []) := by
  match folders with
  | [] => simp at h2
  | [f] => simp at h2
  | f :: g :: rest =>
    show stitchLoop delta_z look_for_best_slice corr copy_mode band overlap_mode
        band_average_size flip (f :: g :: rest) 0 [] = _
    simp only [stitchLoop]
    rw [if_neg (by omega)]

/-- Witness for C5 (amended) on two one-slice folders and band size `0`. -/
theorem stitch_nonpositive_band_errors_witness :
    2 ≤ ([[0], [1]] : List (List ℕ)).length ∧ (0 : ℤ) ≤ 0 ∧
      stitch_multiple_folders_into_one [[0], [1]] 0 false (fun _ _ => 0) 0 0 0 0 false =
        Except.error ("Please use a security_band_size > 0", []) :=
  ⟨by decide, by decide,
    stitch_nonpositive_band_errors [[0], [1]] 0 false (fun _ _ => 0) 0 0 0 0 false
      (by decide) (by decide)⟩

/-! ### C2: cut-over coverage -/

/-- C2 counterexample: in cut-over mode with a positive band size, (a) a run
on one folder with slices `{0, 1}` succeeds but emits only slice `0` (the
last folder is copied with `[top_overlap_index:-1]`, dropping its final
slice), and (b) a run on two 3-slice folders with `delta_z = 2` (odd
`nb_slices - delta_z`) emits nominal z-positions `[0, 1, 2, 2, 3]`: position
`2` is emitted twice and the final position `4` never. -/
theorem stitch_cutover_counterexample :
    (stitch_multiple_folders_into_one [[0, 1]] 0 false (fun _ _ => 0) 0 1 0 0 false =
        Except.ok [FileEvent.src true 0]) ∧
      (stitch_multiple_folders_into_one (mkUniformFolders 2 3) 2 false (fun _ _ => 0)
          0 1 0 0 false =
        Except.ok [FileEvent.src true (0, 0), FileEvent.src true (0, 1),
          FileEvent.src true (0, 2), FileEvent.src true (1, 0),
          FileEvent.src true (1, 1)]) ∧
      ([FileEvent.src true (0, 0), FileEvent.src true (0, 1), FileEvent.src true (0, 2),
          FileEvent.src true (1, 0), FileEvent.src true (1, 1)].map (zOf 2) =
        [0, 1, 2, 2, 3]) := by
  refine ⟨rfl, rfl, rfl⟩

theorem range'_drop (s n m : ℕ) :
    (List.range' s n).drop m = List.range' (s + m) (n - m) := by
  induction n generalizing s m with
  | zero => simp
  | succ n ih =>
    cases m with
    | zero => simp
    | succ m =>
      rw [List.range'_succ, List.drop_succ_cons, ih (s + 1) m]
      congr 1 <;> omega

theorem range_drop (b t : ℕ) : (List.range b).drop t = List.range' t (b - t) := by
  rw [List.range_eq_range', range'_drop, Nat.zero_add]

theorem map_range_take_drop (f : ℕ → β) (nb b t : ℕ) (hb : b ≤ nb) :
    (((List.range nb).map f).take b).drop t = (List.range' t (b - t)).map f := by
  rw [← List.map_take, List.take_range, min_eq_left hb, ← List.map_drop, range_drop]

theorem int_div2_coe (k : ℕ) : int_div2 ((k : ℕ) : ℤ) = ((k / 2 : ℕ) : ℤ) := by
  unfold int_div2
  rw [if_pos (Int.natCast_nonneg k)]
  omega

theorem pySlice_map_range (f : ℕ → β) (nb b t : ℕ) (hb : b ≤ nb) :
    pySlice ((List.range nb).map f) ((t : ℕ) : ℤ) ((b : ℕ) : ℤ) =
      (List.range' t (b - t)).map f := by
  rw [pySlice_coe _ _ _ (by rw [List.length_map, List.length_range]; exact hb)]
  exact map_range_take_drop f nb b t hb

theorem pySlice_map_range_last (f : ℕ → β) (nb t : ℕ) :
    pySlice ((List.range nb).map f) ((t : ℕ) : ℤ) (-1) =
      (List.range' t (nb - 1 - t)).map f := by
  unfold pySlice
  have hlen : ((List.range nb).map f).length = nb := by
    rw [List.length_map, List.length_range]
  rw [hlen, show (-1 : ℤ) = -((1 : ℕ) : ℤ) by norm_num,
    pyNorm_neg_coe nb 1 (by omega), pyNorm_coe]
  rcases le_or_lt t nb with ht | ht
  · rw [min_eq_left ht]
    exact map_range_take_drop f nb (nb - 1) t (by omega)
  · rw [min_eq_right ht.le]
    rw [show nb - 1 - t = 0 by omega]
    simp only [List.range', List.map_nil]
    apply List.drop_eq_nil_of_le
    rw [List.length_take, List.length_map, List.length_range]
    omega

theorem stitchLoop_cutover (corr : List (ℕ × ℕ) → List (ℕ × ℕ) → ℤ)
    (copy_mode band band_average_size : ℤ) (dz nb q : ℕ)
    (hband : 0 < band) (hdz : dz ≤ nb) (hq : q = (nb - dz) / 2) :
    ∀ (m k t : ℕ) (evs : List (FileEvent (ℕ × ℕ))),
      stitchLoop (dz : ℤ) false corr copy_mode band 0 band_average_size false
          ((List.range' k m).map (fun kk => (List.range nb).map (fun s => (kk, s))))
          ((t : ℕ) : ℤ) evs =
        Except.ok (evs ++ expEmit nb q (copy_mode == 0) m k t) := by
  have hqnb : q ≤ nb := by omega
  intro m
  induction m with
  | zero =>
    intro k t evs
    simp [stitchLoop, expEmit]
  | succ m ih =>
    intro k t evs
    cases m with
    | zero =>
      rw [show List.range' k 1 = [k] by rw [List.range'_succ]; rfl, List.map_cons,
        List.map_nil]
      simp only [stitchLoop, Bool.false_eq_true, if_false]
      rw [pySlice_map_range_last (fun s => (k, s)) nb t]
      simp only [expEmit, List.map_map]
      rfl
    | succ m =>
      rw [List.range'_succ, List.map_cons, List.range'_succ, List.map_cons]
      simp only [stitchLoop, Bool.false_eq_true, if_false, List.length_map,
        List.length_range]
      rw [if_pos hband]
      have hcast : ((nb : ℤ) - (dz : ℤ)) = (((nb - dz : ℕ) : ℕ) : ℤ) := by omega
      have hdiv : int_div2 ((nb : ℤ) - (dz : ℤ)) = ((q : ℕ) : ℤ) := by
        rw [hcast, int_div2_coe, hq]
      rw [hdiv]
      have hbot : (nb : ℤ) - (q : ℤ) + 0 = (((nb - q : ℕ) : ℕ) : ℤ) := by omega
      rw [hbot, pySlice_map_range (fun s => (k, s)) nb (nb - q) t (by omega)]
      simp only [beq_self_eq_true, if_true]
      rw [← List.map_cons (fun kk => (List.range nb).map (fun s => (kk, s))) (k + 1),
        ← List.range'_succ]
      rw [ih (k + 1) q]
      simp only [expEmit, List.map_map, List.append_assoc]
      rfl

theorem expEmit_zmap (nb dz q : ℕ) (mv : Bool) (hq : q = (nb - dz) / 2)
    (hpar : (nb - dz) % 2 = 0) (hdz : dz ≤ nb) :
    ∀ (m k t : ℕ), t ≤ nb - q →
      (expEmit nb q mv (m + 1) k t).map (zOf dz) =
        List.range' (k * dz + t) ((k + m) * dz + (nb - 1) - (k * dz + t)) := by
  have hsum : dz + 2 * q = nb := by omega
  intro m
  induction m with
  | zero =>
    intro k t _ht
    simp only [expEmit, List.map_map]
    have hcomp : (zOf dz) ∘ (fun s => FileEvent.src mv (k, s)) =
        (fun s => k * dz + s) := rfl
    rw [hcomp, List.map_add_range']
    congr 1
    have e1 : (k + 0) * dz = k * dz := by ring
    rw [e1]
    omega
  | succ m ih =>
    intro k t ht
    have hq2 : q ≤ nb - q := by omega
    simp only [expEmit, List.map_append, List.map_map]
    rw [ih (k + 1) q hq2]
    have hcomp : (zOf dz) ∘ (fun s => FileEvent.src mv (k, s)) =
        (fun s => k * dz + s) := rfl
    rw [hcomp, List.map_add_range']
    have e1 : (k + 1) * dz = k * dz + dz := by ring
    have e2 : (k + 1 + m) * dz = k * dz + m * dz + dz := by ring
    have e3 : (k + (m + 1)) * dz = k * dz + m * dz + dz := by ring
    rw [e1, e2, e3]
    rw [show k * dz + dz + q = (k * dz + t) + 1 * (nb - q - t) by omega]
    rw [List.range'_append]
    congr 1
    omega

/-- C2 (amended): in cut-over mode (`overlap_mode = 0`) with a positive
`security_band_size`, on `n >= 1` equally-sized folders of `nb` slices, the
nominal displacement `delta_z <= nb` trusted (`look_for_best_slice = False`)
and `nb - delta_z` even, the run emits exactly: from the first folder the
slices `[0, nb - q)`, from each middle folder the slices `[q, nb - q)` and
from the last folder the slices `[q, nb - 1)`, where `q = (nb - delta_z) / 2`
is the nominal overlap index at which each next folder's contribution starts;
under the nominal alignment (folder `k` starting at `z = k * delta_z`), the
emitted z-positions are exactly `0, 1, ..., (n - 1) * delta_z + nb - 2` in
order, each exactly once - i.e. every z-position except the final folder's
last slice is covered exactly once. -/
theorem stitch_cutover_exactly_once (corr : List (ℕ × ℕ) → List (ℕ × ℕ) → ℤ)
    (copy_mode band band_average_size : ℤ) (n nb dz : ℕ)
    (hn : 1 ≤ n) (hnb : 1 ≤ nb) (hdz : dz ≤ nb) (hpar : (nb - dz) % 2 = 0)
    (hband : 0 < band) :
    stitch_multiple_folders_into_one (mkUniformFolders n nb) ((dz : ℕ) : ℤ) false corr
        copy_mode band 0 band_average_size false =
        Except.ok (expEmit nb ((nb - dz) / 2) (copy_mode == 0) n 0 0) ∧
      (expEmit nb ((nb - dz) / 2) (copy_mode == 0) n 0 0).map (zOf dz) =
        List.range ((n - 1) * dz + (nb - 1)) := by
  constructor
  · unfold stitch_multiple_folders_into_one mkUniformFolders
    have h := stitchLoop_cutover corr copy_mode band band_average_size dz nb
      ((nb - dz) / 2) hband hdz rfl n 0 0 []
    rw [← List.range_eq_range'] at h
    simpa using h
  · obtain ⟨m, rfl⟩ : ∃ m, n = m + 1 := ⟨n - 1, by omega⟩
    rw [expEmit_zmap nb dz _ _ rfl hpar hdz m 0 0 (by omega)]
    rw [List.range_eq_range']
    congr 1 <;> simp

/-- Witness for C2 (amended) with `n = 2` folders of `nb = 4` slices,
`delta_z = 2`, band size `1`. -/
theorem stitch_cutover_exactly_once_witness :
    (1 ≤ 2 ∧ 1 ≤ 4 ∧ 2 ≤ 4 ∧ (4 - 2) % 2 = 0 ∧ (0 : ℤ) < 1) ∧
      stitch_multiple_folders_into_one (mkUniformFolders 2 4) ((2 : ℕ) : ℤ) false
          (fun _ _ => 0) 0 1 0 0 false =
          Except.ok (expEmit 4 ((4 - 2) / 2) ((0 : ℤ) == 0) 2 0 0) ∧
        (expEmit 4 ((4 - 2) / 2) ((0 : ℤ) == 0) 2 0 0).map (zOf 2) =
          List.range ((2 - 1) * 2 + (4 - 1)) :=
  ⟨⟨by decide, by decide, by decide, by decide, by decide⟩,
    stitch_cutover_exactly_once (fun _ _ => 0) 0 1 0 2 4 2 (by decide) (by decide)
      (by decide) (by decide) (by decide)⟩

/-! ### C9: final row concatenation -/

theorem pySlice_int (l : List α) (a b : ℤ) (ha : 0 ≤ a) (hb0 : 0 ≤ b)
    (hb : b ≤ l.length) :
    pySlice l a b = (l.take b.toNat).drop a.toNat := by
  have h := pySlice_coe l a.toNat b.toNat (by omega)
  rwa [Int.toNat_of_nonneg ha, Int.toNat_of_nonneg hb0] at h

theorem pySetSlice_int (l src : List α) (a b : ℤ) (ha : 0 ≤ a) (hab : a ≤ b)
    (hb : b ≤ l.length) :
    pySetSlice l a b src = l.take a.toNat ++ src ++ l.drop b.toNat := by
  have h := pySetSlice_coe l src a.toNat b.toNat (by omega) (by omega)
  rwa [Int.toNat_of_nonneg ha, Int.toNat_of_nonneg (le_trans ha hab)] at h

/-- C9 counterexample: with 2 rows of height 4 and overlap 2, the assembled
output slice is `[10, 11, 12, 21, 22, 99]` (`99` being the untouched zero
row): the last row's contribution is cropped at the bottom as well, so its
bottom edge `23` never appears and the final half-overlap stays
zero - contradicting the claim that the last row is not cropped on its
bottom edge. -/
theorem assemble_last_row_also_cropped :
    assemble_output_slice [[10, 11, 12, 13], [20, 21, 22, 23]] 99 4 2 2 =
        [10, 11, 12, 21, 22, 99] ∧
      (23 : ℕ) ∉ assemble_output_slice [[10, 11, 12, 13], [20, 21, 22, 23]] 99 4 2 2 := by
  refine ⟨rfl, by decide⟩

/-- C9 (amended): each output slice is the concatenation of row 0 cropped
only at the bottom (its top edge unmodified) and of every subsequent row -
including the last - cropped at half the overlap height on both edges; the
final half-overlap rows of the output buffer are never written and keep the
zero fill. -/
theorem assemble_output_slice_formula (line_slices : List (List α)) (zero_row : α)
    (ref_height supposed_overlap : ℕ)
    (hov : supposed_overlap % 2 = 0) (hovH : supposed_overlap ≤ ref_height)
    (hlen : ∀ l ∈ line_slices, l.length = ref_height) (hn : 1 ≤ line_slices.length) :
    assemble_output_slice line_slices zero_row ref_height supposed_overlap
        line_slices.length =
      (line_slices.getD 0 []).take (ref_height - supposed_overlap / 2)
        ++ ((List.range' 1 (line_slices.length - 1)).map
            (fun j => ((line_slices.getD j []).drop (supposed_overlap / 2)).take
              (ref_height - supposed_overlap))).flatten
        ++ List.replicate (supposed_overlap / 2) zero_row := by
  obtain ⟨v, rfl⟩ : ∃ v, supposed_overlap = 2 * v := ⟨supposed_overlap / 2, by omega⟩
  have hdiv : 2 * v / 2 = v := Nat.mul_div_cancel_left v (by norm_num)
  rw [hdiv]
  set n := line_slices.length with hn'
  set H := ref_height with hH'
  have hv : v ≤ H := by omega
  have h2v : 2 * v ≤ H := hovH
  have hlen0 : (line_slices.getD 0 []).length = H := by
    rw [List.getD_eq_getElem _ _ (by omega)]
    exact hlen _ (List.getElem_mem _)
  set B : ℕ → List α := fun m =>
    (line_slices.getD 0 []).take (H - v)
      ++ ((List.range' 1 (m - 1)).map
          (fun j => ((line_slices.getD j []).drop v).take (H - 2 * v))).flatten with hB
  have hBlen : ∀ m, m ≤ n → (B m).length = (H - v) + (m - 1) * (H - 2 * v) := by
    intro m hm
    rw [hB]
    simp only [List.length_append, List.length_take, List.length_flatten, List.map_map,
      hlen0]
    rw [min_eq_left (by omega)]
    congr 1
    have hblocks : (List.range' 1 (m - 1)).map
        (List.length ∘ fun j => ((line_slices.getD j []).drop v).take (H - 2 * v)) =
        (List.range' 1 (m - 1)).map (fun _ => H - 2 * v) := by
      apply List.map_congr_left
      intro j hj
      have hjn : j < n := by
        have := (List.mem_range'_1.mp hj).2
        omega
      simp only [Function.comp_apply]
      rw [List.length_take, List.length_drop, List.getD_eq_getElem _ _ hjn,
        hlen _ (List.getElem_mem _)]
      omega
    rw [hblocks, List.map_const', List.sum_replicate, List.length_range', smul_eq_mul]
  have hprod : 2 * v * (n - 1) ≤ n * H :=
    le_trans (Nat.mul_le_mul h2v (Nat.sub_le n 1)) (le_of_eq (mul_comm H n))
  have hout_decomp : n * H - 2 * v * (n - 1) = (H - v) + (n - 1) * (H - 2 * v) + v := by
    zify [hprod, hn, hv, h2v]
    ring
  have key : ∀ m, 1 ≤ m → m ≤ n →
      (List.range m).foldl (assemble_row_step line_slices H (2 * v))
          (List.replicate ((H - v) + (n - 1) * (H - 2 * v) + v) zero_row) =
        B m ++ List.replicate ((n - m) * (H - 2 * v) + v) zero_row := by
    intro m
    induction m with
    | zero => intro h1 _; omega
    | succ m ih =>
      intro _ hmn
      rcases Nat.eq_zero_or_pos m with hm0 | hm0
      · subst hm0
        rw [show List.range 1 = [0] from rfl, List.foldl_cons, List.foldl_nil]
        simp only [assemble_row_step, if_pos rfl, hdiv, hlen0]
        have hc1 : ((H : ℤ) - (v : ℤ)) = ((H - v : ℕ) : ℤ) := by omega
        rw [hc1]
        have hsrc : pySlice (line_slices.getD 0 []) 0 ((H - v : ℕ) : ℤ) =
            (line_slices.getD 0 []).take (H - v) := by
          have h := pySlice_coe (line_slices.getD 0 []) 0 (H - v) (by omega)
          simpa using h
        rw [hsrc]
        have hset := pySetSlice_coe
          (List.replicate ((H - v) + (n - 1) * (H - 2 * v) + v) zero_row)
          ((line_slices.getD 0 []).take (H - v)) 0 (H - v) (by omega)
          (by rw [List.length_replicate]; omega)
        have h0 : ((0 : ℕ) : ℤ) = (0 : ℤ) := by norm_num
        rw [h0] at hset
        rw [hset, List.take_replicate, List.drop_replicate]
        rw [show (H - v) + (n - 1) * (H - 2 * v) + v - (H - v) =
          (n - 1) * (H - 2 * v) + v by omega]
        rw [hB]
        simp
      · rw [List.range_succ, List.foldl_append, List.foldl_cons, List.foldl_nil,
          ih hm0 (by omega)]
        have hmn' : m < n := by omega
        have hlenm : (line_slices.getD m []).length = H := by
          rw [List.getD_eq_getElem _ _ hmn']
          exact hlen _ (List.getElem_mem _)
        simp only [assemble_row_step, if_neg (by omega : ¬ m = 0), hdiv, hlenm]
        have hd1 : (m - 1) * (2 * v) / 2 = (m - 1) * v := by
          rw [show (m - 1) * (2 * v) = 2 * ((m - 1) * v) by ring,
            Nat.mul_div_cancel_left _ (by norm_num : 0 < 2)]
        have hd2 : (2 * m + 1) * (2 * v) / 2 = (2 * m + 1) * v := by
          rw [show (2 * m + 1) * (2 * v) = 2 * ((2 * m + 1) * v) by ring,
            Nat.mul_div_cancel_left _ (by norm_num : 0 < 2)]
        rw [hd1, hd2]
        have hBm : (B m).length = (H - v) + (m - 1) * (H - 2 * v) := hBlen m (by omega)
        have hstart : ((m : ℤ) * ((H : ℤ) - ((v : ℕ) : ℤ)) - (((m - 1) * v : ℕ) : ℤ)) =
            (((B m).length : ℕ) : ℤ) := by
          rw [hBm]
          push_cast [Nat.cast_sub hv, Nat.cast_sub h2v, Nat.cast_sub hm0]
          ring
        have hstop : ((m : ℤ) * (H : ℤ) - (((2 * m + 1) * v : ℕ) : ℤ) + (H : ℤ)) =
            (((B m).length + (H - 2 * v) : ℕ) : ℤ) := by
          rw [hBm]
          push_cast [Nat.cast_sub hv, Nat.cast_sub h2v, Nat.cast_sub hm0]
          ring
        have hbuflen : (B m ++ List.replicate ((n - m) * (H - 2 * v) + v) zero_row).length
            = (B m).length + ((n - m) * (H - 2 * v) + v) := by
          rw [List.length_append, List.length_replicate]
        have hX : (H - 2 * v) ≤ (n - m) * (H - 2 * v) := by
          have h1 : 1 * (H - 2 * v) ≤ (n - m) * (H - 2 * v) :=
            Nat.mul_le_mul_right _ (by omega)
          omega
        have hset := pySetSlice_int
          (B m ++ List.replicate ((n - m) * (H - 2 * v) + v) zero_row)
          (pySlice (line_slices.getD m []) ((v : ℕ) : ℤ) ((H : ℤ) - ((v : ℕ) : ℤ)))
          ((m : ℤ) * ((H : ℤ) - ((v : ℕ) : ℤ)) - (((m - 1) * v : ℕ) : ℤ))
          ((m : ℤ) * (H : ℤ) - (((2 * m + 1) * v : ℕ) : ℤ) + (H : ℤ))
          (by rw [hstart]; exact Int.natCast_nonneg _)
          (by rw [hstart, hstop]; exact_mod_cast Nat.le_add_right _ _)
          (by rw [hstop, hbuflen]; exact_mod_cast by omega)
        rw [hset]
        have hsrc : pySlice (line_slices.getD m []) ((v : ℕ) : ℤ)
            ((H : ℤ) - ((v : ℕ) : ℤ)) =
            ((line_slices.getD m []).drop v).take (H - 2 * v) := by
          rw [show ((H : ℤ) - ((v : ℕ) : ℤ)) = ((H - v : ℕ) : ℤ) by omega]
          rw [pySlice_coe _ _ _ (by omega), List.drop_take]
          rw [show H - v - v = H - 2 * v by omega]
        rw [hsrc]
        rw [hstart, Int.toNat_natCast, hstop, Int.toNat_natCast]
        rw [List.take_left, List.drop_append, List.drop_replicate]
        obtain ⟨k, hk⟩ : ∃ k, n - m = k + 1 := ⟨n - m - 1, by omega⟩
        rw [hk]
        rw [show (k + 1) * (H - 2 * v) + v - (H - 2 * v) = k * (H - 2 * v) + v by
          rw [Nat.succ_mul]
          generalize k * (H - 2 * v) = K
          generalize H - 2 * v = X
          omega]
        rw [show n - (m + 1) = k by omega]
        have hconcat : List.range' 1 m = List.range' 1 (m - 1) ++ [m] := by
          conv_lhs => rw [show m = (m - 1) + 1 by omega]
          rw [List.range'_concat]
          rw [show 1 + 1 * (m - 1) = m by omega]
        have hBsucc : B (m + 1) =
            B m ++ ((line_slices.getD m []).drop v).take (H - 2 * v) := by
          simp only [hB]
          rw [show m + 1 - 1 = m by omega, hconcat, List.map_append,
            List.flatten_append]
          simp [List.append_assoc]
        rw [hBsucc]
  show (List.range n).foldl (assemble_row_step line_slices H (2 * v))
      (List.replicate (n * H - 2 * v * (n - 1)) zero_row) = _
  rw [hout_decomp, key n hn (le_refl n)]
  rw [show n - n = 0 by omega, Nat.zero_mul, Nat.zero_add, hB]

/-- Witness for C9 (amended) with two rows of height 4 and overlap 2. -/
theorem assemble_output_slice_formula_witness :
    (2 % 2 = 0 ∧ 2 ≤ 4 ∧
      (∀ l ∈ ([[10, 11, 12, 13], [20, 21, 22, 23]] : List (List ℕ)), l.length = 4) ∧
      1 ≤ ([[10, 11, 12, 13], [20, 21, 22, 23]] : List (List ℕ)).length) ∧
      assemble_output_slice [[10, 11, 12, 13], [20, 21, 22, 23]] 99 4 2
          ([[10, 11, 12, 13], [20, 21, 22, 23]] : List (List ℕ)).length =
        (([[10, 11, 12, 13], [20, 21, 22, 23]] : List (List ℕ)).getD 0 []).take (4 - 2 / 2)
          ++ ((List.range' 1 (([[10, 11, 12, 13], [20, 21, 22, 23]] :
                List (List ℕ)).length - 1)).map
              (fun j => ((([[10, 11, 12, 13], [20, 21, 22, 23]] :
                List (List ℕ)).getD j []).drop (2 / 2)).take (4 - 2))).flatten
          ++ List.replicate (2 / 2) 99 :=
  ⟨⟨by decide, by decide, by decide, by decide⟩,
    assemble_output_slice_formula [[10, 11, 12, 13], [20, 21, 22, 23]] 99 4 2
      (by decide) (by decide) (by decide) (by decide)⟩

/-! ### Correlation lemmas (C3, C4, C7) -/

theorem sum_map_affine (a b : ℝ) (l : List ℝ) :
    (l.map (fun x => a * x + b)).sum = a * l.sum + l.length * b := by
  induction l with
  | nil => simp
  | cons x xs ih =>
    simp only [List.map_cons, List.sum_cons, ih, List.length_cons]
    push_cast
    ring

theorem npMean_scale (a : ℝ) (l : List ℝ) :
    npMean (l.map (fun x => a * x)) = a * npMean l := by
  unfold npMean
  rw [show (fun x => a * x) = (fun x => a * x + 0) by funext x; ring, sum_map_affine,
    List.length_map]
  rw [mul_zero, add_zero, mul_div_assoc]

theorem npMean_affine (a b : ℝ) (l : List ℝ) (hl : l ≠ []) :
    npMean (l.map (fun x => a * x + b)) = a * npMean l + b := by
  unfold npMean
  rw [sum_map_affine, List.length_map]
  have hn : (l.length : ℝ) ≠ 0 := by
    have := List.length_pos.mpr hl
    exact_mod_cast Nat.pos_iff_ne_zero.mp this
  field_simp
  ring

theorem centerSlice_affine (a b : ℝ) (l : List ℝ) :
    centerSlice (l.map (fun x => a * x + b)) = (centerSlice l).map (fun x => a * x) := by
  rcases eq_or_ne l [] with rfl | hl
  · simp [centerSlice]
  · unfold centerSlice
    rw [npMean_affine a b l hl, List.map_map, List.map_map]
    apply List.map_congr_left
    intro x _
    simp only [Function.comp_apply]
    ring

theorem npStd_scale (a : ℝ) (ha : 0 ≤ a) (l : List ℝ) :
    npStd (l.map (fun x => a * x)) = a * npStd l := by
  unfold npStd
  rw [npMean_scale]
  have hmap : (l.map (fun x => a * x)).map (fun x => (x - a * npMean l) ^ 2) =
      (l.map (fun x => (x - npMean l) ^ 2)).map (fun x => a ^ 2 * x) := by
    rw [List.map_map, List.map_map]
    apply List.map_congr_left
    intro x _
    simp only [Function.comp_apply]
    ring
  rw [hmap, npMean_scale (a ^ 2), Real.sqrt_mul (sq_nonneg a), Real.sqrt_sq ha]

theorem sliceProductSum_map_left (a : ℝ) :
    ∀ (u w : List ℝ), sliceProductSum (u.map (fun x => a * x)) w =
      a * sliceProductSum u w := by
  intro u
  induction u with
  | nil => intro w; simp [sliceProductSum]
  | cons x xs ih =>
    intro w
    cases w with
    | nil => simp [sliceProductSum]
    | cons y ys =>
      simp only [List.map_cons, sliceProductSum, List.zipWith_cons_cons,
        List.sum_cons] at *
      rw [ih ys]
      ring

theorem sliceProductSum_map_right (a : ℝ) :
    ∀ (u w : List ℝ), sliceProductSum u (w.map (fun x => a * x)) =
      a * sliceProductSum u w := by
  intro u
  induction u with
  | nil => intro w; simp [sliceProductSum]
  | cons x xs ih =>
    intro w
    cases w with
    | nil => simp [sliceProductSum]
    | cons y ys =>
      simp only [List.map_cons, sliceProductSum, List.zipWith_cons_cons,
        List.sum_cons] at *
      rw [ih ys]
      ring

theorem getD_map_of_default (f : β → β) (d : β) (hf : f d = d) :
    ∀ (l : List β) (i : ℕ), (l.map f).getD i d = f (l.getD i d) := by
  intro l
  induction l with
  | nil => intro i; simp [hf]
  | cons x xs ih =>
    intro i
    cases i with
    | zero => simp
    | succ i => simpa using ih i

theorem ncc_scores_affine_left (first_image second_image : Image) (a b : ℝ)
    (ha : 0 < a) :
    ncc_scores (affineImage a b first_image) second_image =
      ncc_scores first_image second_image := by
  unfold ncc_scores affineImage
  simp only [List.length_map]
  rw [getD_map_of_default _ _ (by simp) first_image.slices
    (first_image.slices.length / 2)]
  rw [centerSlice_affine, npStd_scale a ha.le]
  apply List.map_congr_left
  intro c2 _
  rw [sliceProductSum_map_left, mul_assoc a, mul_div_mul_left _ _ (ne_of_gt ha)]

theorem ncc_scores_affine_right (first_image second_image : Image) (a b : ℝ)
    (ha : 0 < a) :
    ncc_scores first_image (affineImage a b second_image) =
      ncc_scores first_image second_image := by
  unfold ncc_scores affineImage
  simp only [List.map_map]
  apply List.map_congr_left
  intro u _
  simp only [Function.comp_apply]
  rw [centerSlice_affine, sliceProductSum_map_right, npStd_scale a ha.le,
    mul_left_comm _ a, mul_div_mul_left _ _ (ne_of_gt ha)]

/-- C7: `look_for_maximum_correlation` returns the same best-slice index when
either input is rescaled by `x -> a * x + b` with `a > 0`: the mean-centering
cancels the shift `b` and the standard-deviation division cancels the scale
`a`, leaving every normalized cross-correlation score - hence the argmax -
unchanged. -/
theorem look_for_maximum_correlation_affine_invariant
    (first_image second_image : Image) (a b : ℝ) (ha : 0 < a) :
    look_for_maximum_correlation (affineImage a b first_image) second_image =
        look_for_maximum_correlation first_image second_image ∧
      look_for_maximum_correlation first_image (affineImage a b second_image) =
        look_for_maximum_correlation first_image second_image := by
  unfold look_for_maximum_correlation
  rw [ncc_scores_affine_left _ _ _ _ ha, ncc_scores_affine_right _ _ _ _ ha]
  exact ⟨rfl, rfl⟩

/-- Witness for C7 at `a = 2`, `b = 3` on small concrete volumes. -/
theorem look_for_maximum_correlation_affine_invariant_witness :
    (0 : ℝ) < 2 ∧
      (look_for_maximum_correlation (affineImage 2 3 ⟨[[0, 1]], 2, 1⟩) ⟨[[1, 4]], 2, 1⟩ =
          look_for_maximum_correlation ⟨[[0, 1]], 2, 1⟩ ⟨[[1, 4]], 2, 1⟩ ∧
        look_for_maximum_correlation ⟨[[0, 1]], 2, 1⟩ (affineImage 2 3 ⟨[[1, 4]], 2, 1⟩) =
          look_for_maximum_correlation ⟨[[0, 1]], 2, 1⟩ ⟨[[1, 4]], 2, 1⟩) :=
  ⟨by norm_num,
    look_for_maximum_correlation_affine_invariant ⟨[[0, 1]], 2, 1⟩ ⟨[[1, 4]], 2, 1⟩
      2 3 (by norm_num)⟩

theorem npMean_replicate_zero (m : ℕ) : npMean (List.replicate m (0 : ℝ)) = 0 := by
  unfold npMean
  rw [List.sum_replicate, smul_zero, zero_div]

theorem npStd_centerSlice_replicate (m : ℕ) (c : ℝ) :
    npStd (centerSlice (List.replicate m c)) = 0 := by
  have hcenter : centerSlice (List.replicate m c) = List.replicate m 0 := by
    rcases Nat.eq_zero_or_pos m with hm | hm
    · subst hm; simp [centerSlice]
    · have hmean : npMean (List.replicate m c) = c := by
        unfold npMean
        rw [List.sum_replicate, List.length_replicate, nsmul_eq_mul]
        exact mul_div_cancel_left₀ c (by exact_mod_cast Nat.pos_iff_ne_zero.mp hm)
      unfold centerSlice
      rw [hmean, List.map_replicate]
      simp
  rw [hcenter]
  unfold npStd
  rw [npMean_replicate_zero, List.map_replicate]
  simp [npMean_replicate_zero]

/-- C4: when both inputs contain degenerate (zero-variance) slices at the
positions the correlation actually compares - the reference slice of
`first_image` and slice `j` of `second_image` are constant - both standard
deviations in the score denominator are exactly `0`, and in the total-field
embedding (where `x / 0 = 0`, matching a defined rather than faulting
division) the normalized cross-correlation score at `j` is `0`, for
`look_for_maximum_correlation`'s scores and for
`look_for_maximum_correlation_band`'s inner scores at any reference offset
`i` whose slice is constant alike; no exception path exists. -/
theorem degenerate_slices_give_zero_score (first_image second_image : Image)
    (i : ℤ) (j m1 m2 m3 : ℕ) (c1 c2 c3 : ℝ)
    (h1 : first_image.slices.getD (first_image.slices.length / 2) [] =
      List.replicate m1 c1)
    (h2 : second_image.slices.getD j [] = List.replicate m2 c2)
    (h1b : pyGet first_image.slices
      (((first_image.slices.length / 2 : ℕ) : ℤ) + i) [] = List.replicate m3 c3) :
    npStd (centerSlice (first_image.slices.getD
        (first_image.slices.length / 2) [])) = 0 ∧
      npStd (centerSlice (second_image.slices.getD j [])) = 0 ∧
      (ncc_scores first_image second_image).getD j 0 = 0 ∧
      (band_inner_scores first_image second_image i).getD j 0 = 0 := by
  refine ⟨by rw [h1]; exact npStd_centerSlice_replicate m1 c1,
    by rw [h2]; exact npStd_centerSlice_replicate m2 c2, ?_, ?_⟩
  · have hall : ∀ x ∈ ncc_scores first_image second_image, x = 0 := by
      intro x hx
      simp only [ncc_scores] at hx
      rw [h1, npStd_centerSlice_replicate, List.map_map] at hx
      obtain ⟨u, _, hu⟩ := List.mem_map.mp hx
      simp only [Function.comp_apply, zero_mul, div_zero, zero_div] at hu
      exact hu.symm
    rcases le_or_lt (ncc_scores first_image second_image).length j with hj | hj
    · exact List.getD_eq_default _ _ hj
    · rw [List.getD_eq_getElem _ _ hj]
      exact hall _ (List.getElem_mem hj)
  · have hall : ∀ x ∈ band_inner_scores first_image second_image i, x = 0 := by
      intro x hx
      simp only [band_inner_scores] at hx
      rw [h1b, npStd_centerSlice_replicate] at hx
      obtain ⟨u, _, hu⟩ := List.mem_map.mp hx
      simp only [zero_mul, div_zero, zero_div] at hu
      exact hu.symm
    rcases le_or_lt (band_inner_scores first_image second_image i).length j with hj | hj
    · exact List.getD_eq_default _ _ hj
    · rw [List.getD_eq_getElem _ _ hj]
      exact hall _ (List.getElem_mem hj)

/-- Witness for C4 on one-slice constant volumes, at offset `i = 0`, `j = 0`. -/
theorem degenerate_slices_give_zero_score_witness :
    ((⟨[[5, 5]], 2, 1⟩ : Image).slices.getD
        ((⟨[[5, 5]], 2, 1⟩ : Image).slices.length / 2) [] = List.replicate 2 (5 : ℝ)) ∧
      ((⟨[[7, 7]], 2, 1⟩ : Image).slices.getD 0 [] = List.replicate 2 (7 : ℝ)) ∧
      (ncc_scores ⟨[[5, 5]], 2, 1⟩ ⟨[[7, 7]], 2, 1⟩).getD 0 0 = 0 ∧
      (band_inner_scores ⟨[[5, 5]], 2, 1⟩ ⟨[[7, 7]], 2, 1⟩ 0).getD 0 0 = 0 :=
  ⟨rfl, rfl,
    (degenerate_slices_give_zero_score ⟨[[5, 5]], 2, 1⟩ ⟨[[7, 7]], 2, 1⟩ 0 0 2 2 2
      5 7 5 rfl rfl rfl).2.2.1,
    (degenerate_slices_give_zero_score ⟨[[5, 5]], 2, 1⟩ ⟨[[7, 7]], 2, 1⟩ 0 0 2 2 2
      5 7 5 rfl rfl rfl).2.2.2⟩

theorem foldl_set_range (g : ℕ → ℝ) :
    ∀ (m : ℕ) (l : List ℝ), m ≤ l.length →
      (List.range m).foldl (fun arr k => arr.set k (g k)) l =
        (List.range m).map g ++ l.drop m := by
  intro m
  induction m with
  | zero => intro l _; simp
  | succ m ih =>
    intro l hm
    rw [List.range_succ, List.foldl_append, List.foldl_cons, List.foldl_nil,
      ih l (by omega)]
    have hlenA : (List.map g (List.range m)).length = m := by
      rw [List.length_map, List.length_range]
    rw [List.drop_eq_getElem_cons (show m < l.length by omega)]
    rw [List.set_append_right _ _ (le_of_eq hlenA)]
    have hzero : m - (List.map g (List.range m)).length = 0 := by rw [hlenA]; omega
    rw [hzero, List.set_cons_zero, List.map_append]
    simp

/-- C3: in band mode (`with_segmentation = False` path of the embedding) with
an even `band_size = 2 * R`, the `best_slice_candidates` array holds, at
position `k`, the best-matching-slice candidate for reference offset
`i = k - R` - that is, `np.argmax` of the normalized cross-correlations of
slice `middle + i` against the moving band, minus `i` - for every offset `i`
in `[-R, R)`, and the value `look_for_maximum_correlation_band` returns is
the median (not the mean) of exactly these `2 * R` per-offset candidates. -/
theorem band_returns_median_of_candidates (first_image second_image : Image)
    (R : ℕ) :
    best_slice_candidates first_image second_image (2 * R) =
        (List.range (2 * R)).map
          (fun (k : ℕ) => band_best_candidate first_image second_image
            ((k : ℤ) - (R : ℤ))) ∧
      look_for_maximum_correlation_band first_image second_image (2 * R) =
        npMedian ((List.range (2 * R)).map
          (fun (k : ℕ) => band_best_candidate first_image second_image
            ((k : ℤ) - (R : ℤ)))) := by
  have hdiv : 2 * R / 2 = R := Nat.mul_div_cancel_left R (by norm_num)
  have hfill : best_slice_candidates first_image second_image (2 * R) =
      (List.range (2 * R)).map
        (fun (k : ℕ) => band_best_candidate first_image second_image
          ((k : ℤ) - (R : ℤ))) := by
    unfold best_slice_candidates pyRange
    rw [hdiv]
    rw [show ((R : ℤ) - -((R : ℕ) : ℤ)).toNat = 2 * R by omega]
    rw [List.foldl_map]
    have hstep : (fun (arr : List ℝ) (k : ℕ) =>
        arr.set ((-((R : ℕ) : ℤ) + (k : ℤ)) + ((R : ℕ) : ℤ)).toNat
          (band_best_candidate first_image second_image (-((R : ℕ) : ℤ) + (k : ℤ)))) =
        (fun (arr : List ℝ) (k : ℕ) =>
          arr.set k (band_best_candidate first_image second_image
            ((k : ℤ) - (R : ℤ)))) := by
      funext arr k
      rw [show (-((R : ℕ) : ℤ) + (k : ℤ)) + ((R : ℕ) : ℤ) = ((k : ℕ) : ℤ) by ring,
        Int.toNat_natCast,
        show -((R : ℕ) : ℤ) + (k : ℤ) = (k : ℤ) - (R : ℤ) by ring]
    rw [hstep]
    rw [foldl_set_range _ (2 * R) _ (by rw [List.length_replicate])]
    rw [List.drop_replicate, Nat.sub_self]
    simp
  refine ⟨hfill, ?_⟩
  unfold look_for_maximum_correlation_band
  rw [hfill]
